import Mathlib

/-!
Verification of the pinger probing core: the `History` ring buffer, the
status/sparkline derivation in the icon package, and the `Manager` probe
cycle, shallowly embedded from the Go sources
(`internal/ping`, `internal/icon`, `internal/config`).

Machine integers (`int`, `int64`, `time.Duration` in nanoseconds) are
modelled as `Int`/`Nat`; `float64` millisecond arithmetic is modelled with
exact rationals; network probes are an oracle parameter of the probe cycle.
-/

namespace Pinger

/-- One ping result, mirroring `ping.Sample` (Timestamp, Latency, Failed,
Description). The timestamp is an abstract instant, the latency a duration
in nanoseconds. The derived `default` is Go's zero value. -/
structure Sample where
  timestamp : Nat
  latency : Int
  failed : Bool
  description : String
deriving Repr, DecidableEq, Inhabited

/-- State of the `ping.History` ring buffer: the backing slice, its fixed
capacity, the write cursor and the logical size. The mutex guards
concurrency only and has no sequential meaning. -/
structure History where
  buffer : List Sample
  capacity : Nat
  nextIdx : Nat
  size : Nat
deriving Repr, DecidableEq

/-- Embedding of `ping.NewHistory`: non-positive capacities fall back to 60,
and the backing slice is allocated full of zero samples. -/
def NewHistory (capacity : Int) : History :=
  let c : Nat := if capacity ≤ 0 then 60 else capacity.toNat
  { buffer := List.replicate c default, capacity := c, nextIdx := 0, size := 0 }

/-- Embedding of `History.Add`: write at the cursor, advance the cursor
modulo capacity, grow the logical size up to capacity. -/
def History.Add (h : History) (sample : Sample) : History :=
  { buffer := h.buffer.set h.nextIdx sample
    capacity := h.capacity
    nextIdx := (h.nextIdx + 1) % h.capacity
    size := if h.size < h.capacity then h.size + 1 else h.size }

/-- The count that `History.Latest` actually uses: Go replaces
`n <= 0 || n > h.size` by `h.size`. -/
def latestCount (h : History) (n : Int) : Nat :=
  if n ≤ 0 ∨ (h.size : Int) < n then h.size else n.toNat

/-- The backward walk of `History.Latest`: read the slot at `idx`, then step
the index by `(idx - 1 + capacity) % capacity`. -/
def latestLoop (h : History) : Nat → Nat → List Sample
  | 0, _ => []
  | n + 1, idx =>
      h.buffer.getD idx default :: latestLoop h n ((idx + h.capacity - 1) % h.capacity)

/-- Embedding of `History.Latest`: up to `n` latest samples, most recent
first, starting from the slot before the write cursor. -/
def History.Latest (h : History) (n : Int) : List Sample :=
  latestLoop h (latestCount h n) ((h.nextIdx + h.capacity - 1) % h.capacity)

/-- Embedding of `History.Snapshot`: all retained samples oldest-first,
reading `size` slots from `(nextIdx - size + capacity) % capacity`. -/
def History.Snapshot (h : History) : List Sample :=
  let start := (h.nextIdx + h.capacity - h.size) % h.capacity
  (List.range h.size).map (fun i => h.buffer.getD ((start + i) % h.capacity) default)

/-- A sequence of `Add` calls, oldest first. -/
def addAll (h : History) (l : List Sample) : History :=
  l.foldl History.Add h

/-- Structural well-formedness of a history state; holds for every state
reachable from `NewHistory` by `Add` calls. -/
def History.WF (h : History) : Prop :=
  0 < h.capacity ∧ h.buffer.length = h.capacity ∧ h.nextIdx < h.capacity ∧ h.size ≤ h.capacity

instance (h : History) : Decidable h.WF := by
  unfold History.WF; infer_instance

theorem WF_NewHistory (c : Int) : (NewHistory c).WF := by
  unfold NewHistory History.WF
  by_cases hc : c ≤ 0 <;> simp [hc] <;> omega

theorem WF_Add {h : History} (hw : h.WF) (s : Sample) : (h.Add s).WF := by
  obtain ⟨h1, h2, h3, h4⟩ := hw
  refine ⟨h1, ?_, ?_, ?_⟩ <;> simp [History.Add, h2]
  · exact Nat.mod_lt _ h1
  · split <;> omega

/-! Helper lemmas about `List.getD`, used to reason about the ring buffer. -/

theorem getD_set_self (l : List Sample) {j : Nat} (a d : Sample) (h : j < l.length) :
    (l.set j a).getD j d = a := by
  rw [List.getD_eq_getElem _ _ (by simpa using h)]
  simp [List.getElem_set]

theorem getD_set_ne (l : List Sample) {j k : Nat} (a d : Sample) (h : j ≠ k) :
    (l.set j a).getD k d = l.getD k d := by
  rw [List.getD_eq_getElem?_getD, List.getD_eq_getElem?_getD, List.getElem?_set_ne h]

theorem getD_append_left (l l' : List Sample) {k : Nat} (d : Sample) (h : k < l.length) :
    (l ++ l').getD k d = l.getD k d := by
  rw [List.getD_eq_getElem (l ++ l') _ (by simp; omega), List.getD_eq_getElem _ _ h,
    List.getElem_append_left h]

theorem getD_append_len (l : List Sample) (s d : Sample) : (l ++ [s]).getD l.length d = s := by
  rw [List.getD_eq_getElem _ _ (by simp)]
  rw [List.getElem_append_right (le_refl _)]
  simp

theorem add_mod_ne {c d : Nat} (L : Nat) (hd : 0 < d) (hdc : d < c) : (L + d) % c ≠ L % c := by
  intro h
  have hc : 0 < c := lt_trans hd hdc
  rw [Nat.add_mod] at h
  rw [Nat.mod_eq_of_lt hdc] at h
  have hrc : L % c < c := Nat.mod_lt _ hc
  by_cases hlt : L % c + d < c
  · rw [Nat.mod_eq_of_lt hlt] at h
    omega
  · have hsub : (L % c + d) % c = L % c + d - c := by
      rw [Nat.mod_eq_sub_mod (by omega)]
      exact Nat.mod_eq_of_lt (by omega)
    rw [hsub] at h
    omega

/-- The inductive invariant tying a history state to the full list `l` of
samples added so far (capacity `c`): the logical size is `min l.length c`,
the cursor is `l.length % c`, and the retained slots hold the last
`min l.length c` elements of `l` in ring order. -/
def RingInv (c : Nat) (l : List Sample) (h : History) : Prop :=
  h.capacity = c ∧ h.buffer.length = c ∧ h.size = min l.length c ∧
  h.nextIdx = l.length % c ∧
  ∀ i, i < h.size →
    h.buffer.getD ((l.length % c + (c - h.size) + i) % c) default
      = l.getD (l.length - h.size + i) default

theorem ringInv_nil (c : Nat) (hc : 0 < c) : RingInv c [] (NewHistory (c : Int)) := by
  have hcc : ¬ ((c : Int) ≤ 0) := by
    simp only [not_le]
    exact_mod_cast hc
  refine ⟨?_, ?_, ?_, ?_, ?_⟩
  · simp [NewHistory, hcc]
  · simp [NewHistory, hcc]
  · simp [NewHistory]
  · simp [NewHistory]
  · intro i hi
    simp [NewHistory] at hi

theorem ringInv_add {c : Nat} (hc : 0 < c) {l : List Sample} {h : History} (s : Sample)
    (inv : RingInv c l h) : RingInv c (l ++ [s]) (h.Add s) := by
  obtain ⟨hcap, hlen, hsize, hidx, hbuf⟩ := inv
  have hLlen : (l ++ [s]).length = l.length + 1 := by simp
  set L := l.length with hL
  have hsize' : (h.Add s).size = min (L + 1) c := by
    simp only [History.Add, hcap, hsize]
    split <;> omega
  have hidx' : (h.Add s).nextIdx = (L + 1) % c := by
    simp only [History.Add, hcap, hidx]
    rw [Nat.mod_add_mod]
  refine ⟨by simp [History.Add, hcap], by simp [History.Add, hlen], by rw [hsize', hLlen],
    by rw [hidx', hLlen], ?_⟩
  intro i hi
  rw [hsize'] at hi
  rw [hLlen, hsize']
  set n' := min (L + 1) c with hn'
  -- normalize the ring index to a single modulus
  have e1 : ((L + 1) % c + (c - n') + i) % c = (L + 1 + (c - n') + i) % c := by
    rw [add_assoc, Nat.mod_add_mod, ← add_assoc]
  simp only [History.Add, hidx]
  rw [e1]
  by_cases hcase : L < c
  · -- buffer not yet full: the write lands at slot L, old entries stay in place
    have hn'v : n' = L + 1 := by omega
    have hLmod : L % c = L := Nat.mod_eq_of_lt hcase
    rw [hLmod]
    by_cases hi' : i = L
    · subst hi'
      have e2 : (L + 1 + (c - n') + L) % c = L := by
        have : L + 1 + (c - n') + L = c + L := by omega
        rw [this, Nat.add_mod_left, Nat.mod_eq_of_lt hcase]
      rw [e2, getD_set_self _ _ _ (by omega)]
      have : L + 1 - n' + L = L := by omega
      rw [this, hL, getD_append_len]
    · have hiL : i < L := by omega
      have e2 : (L + 1 + (c - n') + i) % c = i := by
        have : L + 1 + (c - n') + i = c + i := by omega
        rw [this, Nat.add_mod_left, Nat.mod_eq_of_lt (by omega)]
      rw [e2, getD_set_ne _ _ _ (by omega)]
      have hold := hbuf i (by omega)
      rw [hLmod, hsize] at hold
      have e3 : (L + (c - min L c) + i) % c = i := by
        have : L + (c - min L c) + i = c + i := by omega
        rw [this, Nat.add_mod_left, Nat.mod_eq_of_lt (by omega)]
      rw [e3] at hold
      have e4 : L - min L c + i = i := by omega
      rw [e4] at hold
      have e5 : L + 1 - n' + i = i := by omega
      rw [e5, hold, getD_append_left _ _ _ hiL]
  · -- buffer full: the write overwrites the oldest slot
    have hcL : c ≤ L := by omega
    have hn'v : n' = c := by omega
    by_cases hi' : i = c - 1
    · subst hi'
      have e2 : (L + 1 + (c - n') + (c - 1)) % c = L % c := by
        have : L + 1 + (c - n') + (c - 1) = L + c := by omega
        rw [this, Nat.add_mod_right]
      rw [e2, getD_set_self _ _ _ (by rw [hlen]; exact Nat.mod_lt _ hc)]
      have : L + 1 - n' + (c - 1) = L := by omega
      rw [this, hL, getD_append_len]
    · have hic : i < c - 1 := by omega
      have e2 : L + 1 + (c - n') + i = L + (1 + i) := by omega
      rw [e2]
      have hne : (L + (1 + i)) % c ≠ L % c := add_mod_ne L (by omega) (by omega)
      rw [getD_set_ne _ _ _ (fun hcontra => hne hcontra.symm)]
      have hold := hbuf (i + 1) (by omega)
      rw [hsize] at hold
      have e3 : (L % c + (c - min L c) + (i + 1)) % c = (L + (1 + i)) % c := by
        have : L % c + (c - min L c) + (i + 1) = L % c + (1 + i) := by omega
        rw [this, Nat.mod_add_mod]
      rw [e3] at hold
      rw [hold]
      have e4 : L - min L c + (i + 1) = L + 1 - n' + i := by omega
      rw [e4, getD_append_left _ _ _ (by omega)]

theorem ringInv_addAll (c : Nat) (hc : 0 < c) (l : List Sample) :
    RingInv c l (addAll (NewHistory (c : Int)) l) := by
  induction l using List.reverseRecOn with
  | nil => exact ringInv_nil c hc
  | append_singleton l s ih =>
      have he : addAll (NewHistory (c : Int)) (l ++ [s]) =
          (addAll (NewHistory (c : Int)) l).Add s := by
        simp [addAll, List.foldl_append]
      rw [he]
      exact ringInv_add hc s ih

theorem snapshot_of_ringInv {c : Nat} (hc : 0 < c) {l : List Sample} {h : History}
    (inv : RingInv c l h) : h.Snapshot = l.drop (l.length - c) := by
  obtain ⟨hcap, hlen, hsize, hidx, hbuf⟩ := inv
  set L := l.length with hL
  apply List.ext_getElem
  · simp only [History.Snapshot, List.length_map, List.length_range, List.length_drop]
    omega
  · intro i h1 h2
    simp only [History.Snapshot, List.length_map, List.length_range] at h1
    simp only [History.Snapshot, List.getElem_map, List.getElem_range, List.getElem_drop]
    rw [hcap, hidx, hsize]
    have e1 : (L % c + c - min L c) % c = (L % c + (c - min L c)) % c := by
      have : L % c + c - min L c = L % c + (c - min L c) := by omega
      rw [this]
    rw [e1, Nat.mod_add_mod]
    have hold := hbuf i h1
    rw [hsize] at hold
    rw [hold]
    have e3 : L - min L c + i = L - c + i := by omega
    rw [e3]
    rw [List.getD_eq_getElem l default (by omega : L - c + i < l.length)]

/-- C1: for every capacity `C > 0` and every sequence of `N` calls to
`History.Add` starting from `NewHistory C`, `Snapshot()` returns exactly the
last `min(N, C)` added samples in insertion (oldest-first) order; its length
is `N` when `N ≤ C` and `C` when `N > C`. -/
theorem claimC1_snapshot_ring (c : Nat) (hc : 0 < c) (l : List Sample) :
    (addAll (NewHistory (c : Int)) l).Snapshot = l.drop (l.length - c) ∧
    (addAll (NewHistory (c : Int)) l).Snapshot.length = min l.length c := by
  have inv := ringInv_addAll c hc l
  have hs := snapshot_of_ringInv hc inv
  refine ⟨hs, ?_⟩
  rw [hs, List.length_drop]
  omega

def sampleA : Sample := ⟨1, 20000000, false, "ok"⟩

def sampleB : Sample := ⟨2, 30000000, false, "ok"⟩

def sampleC : Sample := ⟨3, 0, true, "timeout"⟩

def sampleD : Sample := ⟨4, 50000000, false, "ok"⟩

theorem claimC1_wit :
    (0 < 3) ∧
    ((addAll (NewHistory ((3 : Nat) : Int)) [sampleA, sampleB, sampleC, sampleD]).Snapshot
        = [sampleA, sampleB, sampleC, sampleD].drop
            ([sampleA, sampleB, sampleC, sampleD].length - 3) ∧
      (addAll (NewHistory ((3 : Nat) : Int)) [sampleA, sampleB, sampleC, sampleD]).Snapshot.length
        = min [sampleA, sampleB, sampleC, sampleD].length 3) :=
  ⟨by decide, claimC1_snapshot_ring 3 (by decide) [sampleA, sampleB, sampleC, sampleD]⟩

theorem latestLoop_length (h : History) (m idx : Nat) : (latestLoop h m idx).length = m := by
  induction m generalizing idx with
  | zero => simp [latestLoop]
  | succ n ih => simp [latestLoop, ih]

theorem latestLoop_eq_map (h : History) (hc : 0 < h.capacity) (m : Nat) :
    ∀ idx, idx < h.capacity →
      latestLoop h m idx = (List.range m).map
        (fun i => h.buffer.getD ((idx + i * (h.capacity - 1)) % h.capacity) default) := by
  induction m with
  | zero =>
      intro idx _
      simp [latestLoop]
  | succ n ih =>
      intro idx hidx
      rw [latestLoop, List.range_succ_eq_map, List.map_cons]
      congr 1
      · simp [Nat.mod_eq_of_lt hidx]
      · rw [ih ((idx + h.capacity - 1) % h.capacity) (Nat.mod_lt _ hc), List.map_map]
        apply List.map_congr_left
        intro i _
        simp only [Function.comp_apply]
        congr 1
        rw [Nat.mod_add_mod]
        congr 1
        have hmul : (i + 1) * (h.capacity - 1) = i * (h.capacity - 1) + (h.capacity - 1) :=
          Nat.succ_mul _ _
        simp only [Nat.succ_eq_add_one, hmul]
        omega

/-- C2 (amended): for every well-formed history and every integer `k`,
`Latest(k)` is the reverse of the last `m` elements of `Snapshot()`, where
`m` is the count Go actually uses: `k` itself when `1 ≤ k ≤ size`, and the
full current size when `k ≤ 0` or `k > size` (so `Latest(0)` returns all
retained samples most-recent-first, and `Latest` on an empty history is
empty). -/
theorem claimC2_latest_reverse (h : History) (hw : h.WF) (k : Int) :
    h.Latest k = (h.Snapshot.drop (h.size - latestCount h k)).reverse := by
  obtain ⟨hc, hlen, hidxlt, hsz⟩ := hw
  set m := latestCount h k with hm
  have hmle : m ≤ h.size := by
    rw [hm]
    unfold latestCount
    split
    · exact le_refl _
    · omega
  have hsnaplen : h.Snapshot.length = h.size := by
    simp [History.Snapshot]
  have hidx0 : (h.nextIdx + h.capacity - 1) % h.capacity < h.capacity := Nat.mod_lt _ hc
  rw [History.Latest, ← hm, latestLoop_eq_map h hc m _ hidx0]
  have hdl : (h.Snapshot.drop (h.size - m)).length = m := by
    simp only [List.length_drop, hsnaplen]
    omega
  apply List.ext_getElem
  · simp only [List.length_map, List.length_range, List.length_reverse, hdl]
  · intro i h1 h2
    simp only [List.length_map, List.length_range] at h1
    simp only [List.getElem_map, List.getElem_range]
    rw [List.getElem_reverse]
    simp only [hdl]
    rw [List.getElem_drop]
    simp only [History.Snapshot, List.getElem_map, List.getElem_range]
    have hic : i * h.capacity = i * (h.capacity - 1) + i := by
      conv_lhs => rw [show h.capacity = (h.capacity - 1) + 1 by omega]
      rw [Nat.mul_succ]
    have l1 : ((h.nextIdx + h.capacity - 1) % h.capacity + i * (h.capacity - 1)) % h.capacity
        = (h.nextIdx + h.capacity - 1 - i) % h.capacity := by
      rw [Nat.mod_add_mod]
      have harg : h.nextIdx + h.capacity - 1 + i * (h.capacity - 1)
          = (h.nextIdx + h.capacity - 1 - i) + i * h.capacity := by
        omega
      rw [harg, Nat.add_mul_mod_self_right]
    have l2 : ((h.nextIdx + h.capacity - h.size) % h.capacity
          + (h.size - m + (m - 1 - i))) % h.capacity
        = (h.nextIdx + h.capacity - 1 - i) % h.capacity := by
      rw [Nat.mod_add_mod]
      congr 1
      omega
    rw [l1, l2]

/-- C2 counterexample: the claim predicts `Latest(0) = []`, but on a history
holding one sample the code returns that sample (Go replaces `n <= 0` by the
current size before walking). -/
theorem claimC2_cex :
    ((NewHistory 3).Add sampleA).Latest 0 = [sampleA] ∧ [sampleA] ≠ ([] : List Sample) := by
  constructor
  · decide
  · decide

theorem claimC2_wit :
    ((NewHistory 3).Add sampleA).WF ∧
    ((NewHistory 3).Add sampleA).Latest 0 =
      ((((NewHistory 3).Add sampleA).Snapshot).drop
        (((NewHistory 3).Add sampleA).size - latestCount ((NewHistory 3).Add sampleA) 0)).reverse :=
  ⟨by decide, claimC2_latest_reverse _ (by decide) 0⟩

/-! Embedding of the status derivation in `internal/icon` (`BorderColorFor`).
Go computes milliseconds as `float64(d.Microseconds()) / 1000.0`; we model
this exactly over the rationals, with `Microseconds()` being truncating
integer division of the nanosecond count by 1000. -/

/-- The four border colors of `internal/icon` (`colNeutral`, `colYellow`,
`colOrange`, `colRed`). -/
inductive IconColor where
  | neutral
  | yellow
  | orange
  | red
deriving Repr, DecidableEq

/-- Millisecond value of a latency in nanoseconds, as computed by
`float64(d.Microseconds()) / 1000.0`. -/
def latencyMsQ (lat : Int) : ℚ :=
  ((Int.tdiv lat 1000 : Int) : ℚ) / 1000

/-- Embedding of `icon.BorderColorFor`: in-flight age thresholds, else the
average of the up-to-5 latest samples with any failure forcing red. The
three accumulator folds mirror the single Go loop variable by variable. -/
def BorderColorFor (history : History) (inFlight : Bool) (ageMs : Int) : IconColor :=
  if inFlight then
    if 300 ≤ ageMs then .orange
    else if 100 ≤ ageMs then .yellow
    else .neutral
  else
    let last := history.Latest 5
    if last.length = 0 then .neutral
    else
      let sumMs : ℚ := last.foldl (fun a s => if s.failed then a else a + latencyMsQ s.latency) 0
      let countOK : Nat := last.foldl (fun a s => if s.failed then a else a + 1) 0
      let anyFail : Bool := last.foldl (fun a s => if s.failed then true else a) false
      if anyFail then .red
      else if countOK = 0 then .neutral
      else
        let avg := sumMs / (countOK : ℚ)
        if 300 ≤ avg then .orange
        else if 100 ≤ avg then .yellow
        else .neutral

theorem foldl_anyFail (l : List Sample) (b : Bool) :
    l.foldl (fun a s => if s.failed then true else a) b = (b || l.any (fun s => s.failed)) := by
  induction l generalizing b with
  | nil => simp
  | cons x xs ih =>
      rw [List.foldl_cons, List.any_cons, ih]
      cases hx : x.failed <;> cases b <;> simp [hx]

theorem foldl_countOK (l : List Sample) (n : Nat) :
    l.foldl (fun a s => if s.failed then a else a + 1) n
      = n + (l.filter (fun s => !s.failed)).length := by
  induction l generalizing n with
  | nil => simp
  | cons x xs ih =>
      cases hx : x.failed <;> simp [List.foldl_cons, hx, ih, List.filter_cons] <;> omega

theorem foldl_sumOK (l : List Sample) (q : ℚ) :
    l.foldl (fun a s => if s.failed then a else a + latencyMsQ s.latency) q
      = q + ((l.filter (fun s => !s.failed)).map (fun s => latencyMsQ s.latency)).sum := by
  induction l generalizing q with
  | nil => simp
  | cons x xs ih =>
      cases hx : x.failed <;> simp [List.foldl_cons, hx, ih, List.filter_cons] <;> ring

/-- The status mapping as the claim words it: red on any failure in the
window, neutral on an empty window, otherwise thresholds on the arithmetic
mean latency of the (all successful) samples at 100ms and 300ms. -/
def statusSpecC3 (window : List Sample) : IconColor :=
  if window.any (fun s => s.failed) then .red
  else if window.isEmpty then .neutral
  else
    let mean := ((window.map (fun s => latencyMsQ s.latency)).sum) / (window.length : ℚ)
    if mean < 100 then .neutral
    else if mean < 300 then .yellow
    else .orange

/-- C3: with no probe in flight, the border color derived from the 5 most
recent samples is red when any of them failed, neutral on an empty window,
and otherwise neutral, yellow or orange according to whether the mean
latency of the successful samples is below 100ms, in [100ms, 300ms), or at
least 300ms. -/
theorem claimC3_border_status (h : History) (ageMs : Int) :
    BorderColorFor h false ageMs = statusSpecC3 (h.Latest 5) := by
  simp only [BorderColorFor, Bool.false_eq_true, if_false]
  generalize h.Latest 5 = l
  by_cases hl : l.length = 0
  · have : l = [] := List.length_eq_zero.mp hl
    subst this
    simp [statusSpecC3]
  · simp only [hl, if_false, foldl_anyFail, foldl_countOK, foldl_sumOK, Bool.false_or,
      Nat.zero_add, zero_add]
    by_cases hf : l.any (fun s => s.failed) = true
    · simp [hf, statusSpecC3]
    · have hoff : ∀ s ∈ l, s.failed = false := by
        intro s hs
        by_contra hcon
        exact hf (List.any_eq_true.mpr ⟨s, hs, by simpa using hcon⟩)
      have hfilter : l.filter (fun s => !s.failed) = l := by
        rw [List.filter_eq_self]
        intro a ha
        simp [hoff a ha]
      have hfb : (l.any fun s => s.failed) = false := by
        simpa using hf
      rw [hfilter]
      simp only [hfb, Bool.false_eq_true, if_false, statusSpecC3]
      have hne : ¬ l.length = 0 := hl
      simp only [hne, if_false, List.isEmpty_iff, hl]
      have hnil : ¬ l = [] := by
        intro hcon
        exact hl (by simp [hcon])
      simp only [hnil, if_false]
      set mean := ((l.map fun s => latencyMsQ s.latency).sum) / (l.length : ℚ) with hmean
      split_ifs <;> first | rfl | linarith

/-! Embedding of the sparkline geometry of `icon.Render`: the vertical scale
ceiling, the plotted window of the last 20 samples, and the normalized
vertical position of each plotted sample. -/

/-- Icon geometry constants `width`, `height`, `padX`, `padY`. -/
def widthC : Nat := 24

def heightC : Nat := 24

def padXC : Nat := 3

def padYC : Nat := 4

/-- The drawable plot height `float64(height - 2*padY)` with the fallback of
`Render` for non-positive values. -/
def plotHQ : ℚ :=
  if ((heightC : ℚ) - 2 * (padYC : ℚ)) ≤ 0 then (heightC : ℚ)
  else (heightC : ℚ) - 2 * (padYC : ℚ)

/-- The vertical scale ceiling of `Render`: starting from the 300ms floor,
the running maximum of the non-failed latencies of `series` — note that
`Render` runs this loop over the whole snapshot, before windowing. -/
def maxMsOf (series : List Sample) : ℚ :=
  series.foldl
    (fun maxMs s =>
      if s.failed then maxMs
      else if latencyMsQ s.latency > maxMs then latencyMsQ s.latency else maxMs)
    300

/-- The plotted window of `Render`: the last up-to-20 samples, oldest-first
(`series = series[n-20:]` when `n > 20`). -/
def renderWindow (series : List Sample) : List Sample :=
  if 20 < series.length then series.drop (series.length - 20) else series

/-- Normalized vertical position of a non-failed sample:
`ratio := math.Min(1.0, ms/maxMs)`. -/
def okRatio (maxMs ms : ℚ) : ℚ := min 1 (ms / maxMs)

/-- Pixel-space height of a non-failed sample before rounding:
`yy := float64(height-padY) - plotH*ratio`; smaller values are closer to the
top of the icon, which is the "worse" direction. -/
def okYY (maxMs ms : ℚ) : ℚ := ((heightC : ℚ) - (padYC : ℚ)) - plotHQ * okRatio maxMs ms

/-- Go's `int(x)` conversion on a float: truncation toward zero. -/
def goInt (q : ℚ) : Int := if q < 0 then Int.ceil q else Int.floor q

/-- The y pixel at which `Render` draws the red failure dot:
`drawDot(img, image.Pt(p.X, padY), colRed)`, a constant independent of any
latency value. -/
def failureMarkerY : ℚ := (padYC : ℚ)

/-- The sequence of normalized vertical positions `Render` plots for a
history: the last up-to-20 snapshot samples oldest-first, `none` marking a
failed sample, `some r` the clamped ratio of a successful one. The ceiling
is computed over the whole snapshot, then the window is cut. -/
def renderRatios (history : History) : List (Option ℚ) :=
  let series := history.Snapshot
  if series.length = 0 then []
  else
    let maxMs := maxMsOf series
    (renderWindow series).map
      (fun s => if s.failed then none else some (okRatio maxMs (latencyMsQ s.latency)))

/-- Ceiling as the claim words it: the maximum non-failed latency observed
among the given samples, with a floor of 300ms. -/
def windowCeiling (window : List Sample) : ℚ :=
  ((window.filter (fun s => !s.failed)).map (fun s => latencyMsQ s.latency)).foldl max 300

/-- Modelled from the claim text of C7: positions of the most recent 20
samples, oldest-first, each non-failed one at `min(1, latency/ceiling)` with
the ceiling taken over the samples in the plotted window only. -/
def specRatiosC7 (history : History) : List (Option ℚ) :=
  let window := (history.Snapshot).drop (history.Snapshot.length - 20)
  let ceiling := windowCeiling window
  window.map (fun s => if s.failed then none else some (okRatio ceiling (latencyMsQ s.latency)))

/-- The amended C7 mapping: identical to `specRatiosC7` except that the
ceiling is the maximum non-failed latency over the entire snapshot. -/
def specRatiosC7Amended (history : History) : List (Option ℚ) :=
  let series := history.Snapshot
  let ceiling := windowCeiling series
  (series.drop (series.length - 20)).map
    (fun s => if s.failed then none else some (okRatio ceiling (latencyMsQ s.latency)))

theorem ite_gt_eq_max (m x : ℚ) : (if x > m then x else m) = max m x := by
  rcases le_or_lt x m with hxm | hxm
  · rw [if_neg (not_lt.mpr hxm), max_eq_left hxm]
  · rw [if_pos hxm, max_eq_right hxm.le]

theorem maxMsOf_eq_ceiling_from (l : List Sample) :
    ∀ a : ℚ,
      l.foldl
        (fun maxMs s =>
          if s.failed then maxMs
          else if latencyMsQ s.latency > maxMs then latencyMsQ s.latency else maxMs) a
      = ((l.filter (fun s => !s.failed)).map (fun s => latencyMsQ s.latency)).foldl max a := by
  induction l with
  | nil => intro a; simp
  | cons x xs ih =>
      intro a
      rw [List.foldl_cons, List.filter_cons]
      cases hx : x.failed
      · simp only [Bool.not_false, if_pos, Bool.false_eq_true, if_false, List.map_cons,
          List.foldl_cons]
        rw [ite_gt_eq_max, ih]
      · simp only [Bool.not_true, if_neg, if_true]
        exact ih a

theorem maxMsOf_eq_windowCeiling (l : List Sample) : maxMsOf l = windowCeiling l :=
  maxMsOf_eq_ceiling_from l 300

theorem le_foldl_max (l : List ℚ) : ∀ a : ℚ, a ≤ l.foldl max a := by
  induction l with
  | nil => intro a; simp
  | cons x xs ih =>
      intro a
      rw [List.foldl_cons]
      exact le_trans (le_max_left a x) (ih (max a x))

theorem maxMsOf_ge (l : List Sample) : 300 ≤ maxMsOf l := by
  rw [maxMsOf_eq_windowCeiling]
  exact le_foldl_max _ 300

/-- C7 (amended): `Render` plots exactly the most recent 20 snapshot
samples, oldest-to-newest, and each non-failed plotted sample's normalized
vertical position is `min(1, latency/ceiling)` — but the ceiling is the
maximum non-failed latency over the entire retained snapshot (floored at
300ms), not just over the plotted window. -/
theorem claimC7_ratios (h : History) : renderRatios h = specRatiosC7Amended h := by
  unfold renderRatios specRatiosC7Amended
  by_cases h0 : h.Snapshot.length = 0
  · have hnil : h.Snapshot = [] := List.length_eq_zero.mp h0
    simp [hnil]
  · simp only [h0, if_false]
    have hw : renderWindow h.Snapshot = h.Snapshot.drop (h.Snapshot.length - 20) := by
      unfold renderWindow
      split
      · rfl
      · rw [show h.Snapshot.length - 20 = 0 by omega, List.drop_zero]
    rw [hw, maxMsOf_eq_windowCeiling]

def sampleBigMs : Sample := ⟨0, 1000000000, false, "ok"⟩

def sampleSmallMs : Sample := ⟨0, 10000000, false, "ok"⟩

def listC7 : List Sample := sampleBigMs :: List.replicate 20 sampleSmallMs

def histC7 : History := addAll (NewHistory ((25 : Nat) : Int)) listC7

theorem foldl_replicate_fix {α β : Type} (f : α → β → α) (a : α) (s : β) (hf : f a s = a) :
    ∀ n : Nat, (List.replicate n s).foldl f a = a := by
  intro n
  induction n with
  | zero => simp
  | succ k ih => rw [List.replicate_succ, List.foldl_cons, hf, ih]

theorem msBig_eval : latencyMsQ 1000000000 = 1000 := by
  rw [latencyMsQ, show Int.tdiv 1000000000 1000 = 1000000 by decide]
  norm_num

theorem msSmall_eval : latencyMsQ 10000000 = 10 := by
  rw [latencyMsQ, show Int.tdiv 10000000 1000 = 10000 by decide]
  norm_num

theorem snapshot_histC7 : histC7.Snapshot = listC7 := by
  have h1 := snapshot_of_ringInv (show 0 < 25 by norm_num) (ringInv_addAll 25 (by norm_num) listC7)
  rw [histC7, h1, show listC7.length - 25 = 0 by simp [listC7], List.drop_zero]

theorem maxMs_histC7 : maxMsOf listC7 = 1000 := by
  rw [maxMsOf, listC7, List.foldl_cons]
  have hstep : (if sampleBigMs.failed then (300:ℚ)
      else if latencyMsQ sampleBigMs.latency > 300 then latencyMsQ sampleBigMs.latency else 300)
      = 1000 := by
    simp only [sampleBigMs, msBig_eval]
    norm_num
  rw [hstep]
  apply foldl_replicate_fix
  simp only [sampleSmallMs, msSmall_eval]
  norm_num

theorem windowCeiling_small : windowCeiling (List.replicate 20 sampleSmallMs) = 300 := by
  rw [windowCeiling]
  have hfil : (List.replicate 20 sampleSmallMs).filter (fun s => !s.failed)
      = List.replicate 20 sampleSmallMs := by
    rw [List.filter_eq_self]
    intro a ha
    rw [List.eq_of_mem_replicate ha]
    rfl
  rw [hfil, List.map_replicate]
  apply foldl_replicate_fix
  show (300:ℚ) ⊔ latencyMsQ 10000000 = 300
  rw [msSmall_eval]
  exact max_eq_left (by norm_num)

/-- C7 counterexample: a history of 21 samples whose oldest sample (1000ms)
falls outside the plotted window of 20. The claim's window-local ceiling
would be 300ms, giving ratio 10/300 = 1/30 for the 10ms samples, but
`Render` uses the ceiling 1000ms computed from the whole snapshot, giving
ratio 10/1000 = 1/100. -/
theorem claimC7_cex : renderRatios histC7 ≠ specRatiosC7 histC7 := by
  have hlen : histC7.Snapshot.length = 21 := by
    rw [snapshot_histC7]
    simp [listC7]
  have hwin : histC7.Snapshot.drop (histC7.Snapshot.length - 20)
      = List.replicate 20 sampleSmallMs := by
    rw [hlen, snapshot_histC7, listC7]
    norm_num
  have hrender : renderRatios histC7 = List.replicate 20 (some ((1:ℚ)/100)) := by
    rw [renderRatios]
    simp only [hlen]
    rw [if_neg (by norm_num), renderWindow]
    rw [if_pos (by rw [hlen]; norm_num)]
    rw [snapshot_histC7, maxMs_histC7]
    rw [← snapshot_histC7, hwin, List.map_replicate]
    have : (if sampleSmallMs.failed then none
        else some (okRatio 1000 (latencyMsQ sampleSmallMs.latency))) = some ((1:ℚ)/100) := by
      simp only [sampleSmallMs, msSmall_eval]
      rw [if_neg (by norm_num), okRatio, min_eq_right (by norm_num)]
      norm_num
    rw [this]
  have hspec : specRatiosC7 histC7 = List.replicate 20 (some ((1:ℚ)/30)) := by
    rw [specRatiosC7]
    simp only [hwin, windowCeiling_small, List.map_replicate]
    have : (if sampleSmallMs.failed then none
        else some (okRatio 300 (latencyMsQ sampleSmallMs.latency))) = some ((1:ℚ)/30) := by
      simp only [sampleSmallMs, msSmall_eval]
      rw [if_neg (by norm_num), okRatio, min_eq_right (by norm_num)]
      norm_num
    rw [this]
  rw [hrender, hspec]
  intro hcon
  rw [show (20:Nat) = 19 + 1 from rfl, List.replicate_succ, List.replicate_succ] at hcon
  have hhead : some ((1:ℚ)/100) = some ((1:ℚ)/30) := (List.cons.injEq _ _ _ _).mp hcon |>.1
  have : (1:ℚ)/100 = 1/30 := Option.some.inj hhead
  norm_num at this

/-- C8: the sample-to-position mapping of `Render` is monotonic (a higher
latency gives a y position at least as close to the top, the "worse"
extreme, both before and after pixel rounding), clamped (every position is
at least `padY`, inside the drawable range, no matter how far the latency
exceeds the ceiling), and the failure marker is drawn at the constant y
`padY`, the extreme worst position, at least as high as any successful
sample's position and not interpolated from any latency. -/
theorem claimC8_contract (series : List Sample) (ms1 ms2 : ℚ) (hle : ms1 ≤ ms2) :
    okYY (maxMsOf series) ms2 ≤ okYY (maxMsOf series) ms1 ∧
    goInt (okYY (maxMsOf series) ms2 + 1/2) ≤ goInt (okYY (maxMsOf series) ms1 + 1/2) ∧
    (padYC : ℚ) ≤ okYY (maxMsOf series) ms2 ∧
    failureMarkerY ≤ okYY (maxMsOf series) ms2 ∧
    failureMarkerY = (padYC : ℚ) := by
  have hpos : (0:ℚ) < maxMsOf series := lt_of_lt_of_le (by norm_num) (maxMsOf_ge series)
  have hplot : plotHQ = 16 := by norm_num [plotHQ, heightC, padYC]
  have hplotpos : (0:ℚ) ≤ plotHQ := by
    rw [hplot]
    norm_num
  have hratio : okRatio (maxMsOf series) ms1 ≤ okRatio (maxMsOf series) ms2 := by
    unfold okRatio
    exact min_le_min (le_refl 1) ((div_le_div_iff_of_pos_right hpos).mpr hle)
  have hr1 : okRatio (maxMsOf series) ms2 ≤ 1 := min_le_left _ _
  have hyy : okYY (maxMsOf series) ms2 ≤ okYY (maxMsOf series) ms1 := by
    unfold okYY
    have := mul_le_mul_of_nonneg_left hratio hplotpos
    linarith
  have hclamp : (padYC : ℚ) ≤ okYY (maxMsOf series) ms2 := by
    unfold okYY
    have hm : plotHQ * okRatio (maxMsOf series) ms2 ≤ plotHQ * 1 :=
      mul_le_mul_of_nonneg_left hr1 hplotpos
    rw [hplot] at hm
    rw [hplot]
    norm_num [heightC, padYC]
    linarith
  refine ⟨hyy, ?_, hclamp, hclamp, rfl⟩
  have h2 : (0:ℚ) ≤ okYY (maxMsOf series) ms2 + 1/2 := by
    have : (4:ℚ) ≤ okYY (maxMsOf series) ms2 := by
      simpa [padYC] using hclamp
    linarith
  have h1 : (0:ℚ) ≤ okYY (maxMsOf series) ms1 + 1/2 := by
    have := le_trans hclamp hyy
    simp only [padYC] at this
    push_cast at this
    linarith
  unfold goInt
  rw [if_neg (not_lt.mpr h2), if_neg (not_lt.mpr h1)]
  exact Int.floor_le_floor (by linarith)

theorem claimC8_wit :
    ((10:ℚ) ≤ 400) ∧
    (okYY (maxMsOf []) 400 ≤ okYY (maxMsOf []) 10 ∧
      goInt (okYY (maxMsOf []) 400 + 1/2) ≤ goInt (okYY (maxMsOf []) 10 + 1/2) ∧
      (padYC : ℚ) ≤ okYY (maxMsOf []) 400 ∧
      failureMarkerY ≤ okYY (maxMsOf []) 400 ∧
      failureMarkerY = (padYC : ℚ)) :=
  ⟨by norm_num, claimC8_contract [] 10 400 (by norm_num)⟩

/-! Embedding of the `ping.Manager` probe cycle. The network probe itself
(`pro-bing`, `net.Dialer`) is external IO, modelled as an oracle
`probe : ProbeMode → String → Except String Sample`; the current instant is
supplied by the caller. Goroutine and context machinery carry no sequential
meaning and are not part of the state. -/

/-- `config.ProbeMode` is a string type with two recognized constants. -/
abbrev ProbeMode := String

def ProbeModeICMP : ProbeMode := "ICMP"

def ProbeModeHTTP : ProbeMode := "HTTP"

/-- Sequential state of `ping.Manager`: configuration fields, the owned
history, the in-flight flag with its start instant, and the buffered result
channel (capacity 100) modelled as the list of queued samples. -/
structure Manager where
  target : String
  interval : Int
  timeout : Int
  probeMode : ProbeMode
  history : History
  inFlight : Bool
  inFlightStart : Nat
  resultCh : List Sample
deriving Repr, DecidableEq

/-- Embedding of `ping.NewManager` with its silent normalization of invalid
parameters (durations in nanoseconds: 1s interval, 2s timeout defaults). -/
def NewManager (target : String) (interval timeout : Int) (probeMode : ProbeMode)
    (historyCapacity : Int) : Manager :=
  let target := if target = "" then "1.1.1.1" else target
  let interval := if interval ≤ 0 then 1000000000 else interval
  let timeout := if timeout ≤ 0 then 2000000000 else timeout
  let probeMode :=
    if probeMode ≠ ProbeModeICMP ∧ probeMode ≠ ProbeModeHTTP then ProbeModeICMP else probeMode
  { target := target, interval := interval, timeout := timeout, probeMode := probeMode,
    history := NewHistory historyCapacity, inFlight := false, inFlightStart := 0,
    resultCh := [] }

/-- Embedding of `Manager.SetTarget`: a plain protected field write. -/
def Manager.SetTarget (m : Manager) (target : String) : Manager :=
  { m with target := target }

/-- Embedding of `Manager.SetProbeMode`: a plain protected field write. -/
def Manager.SetProbeMode (m : Manager) (mode : ProbeMode) : Manager :=
  { m with probeMode := mode }

/-- Embedding of the `Manager.Target()` getter. -/
def Manager.Target (m : Manager) : String := m.target

/-- Embedding of the `Manager.ProbeMode()` getter (named `ProbeModeVal`
here only because the Go method shares its name with the `ProbeMode`
type). -/
def Manager.ProbeModeVal (m : Manager) : ProbeMode := m.probeMode

/-- Embedding of `Manager.IsInFlight`: both components are produced from one
guarded read; when the flag is down the elapsed component is the literal 0,
otherwise it is `time.Since(inFlightStart)`. -/
def Manager.IsInFlight (m : Manager) (now : Nat) : Bool × Int :=
  if !m.inFlight then (false, 0)
  else (true, (now : Int) - (m.inFlightStart : Int))

/-- Embedding of `Manager.markInFlight`: raising the flag records the start
instant; lowering it leaves the start instant untouched. -/
def Manager.markInFlight (m : Manager) (start : Bool) (now : Nat) : Manager :=
  if start then { m with inFlight := true, inFlightStart := now }
  else { m with inFlight := false }

/-- Non-blocking send on the buffered result channel (capacity 100):
the sample is dropped when the buffer is full. -/
def sendNonBlocking (ch : List Sample) (s : Sample) : List Sample :=
  if ch.length < 100 then ch ++ [s] else ch

/-- Embedding of `Manager.emitFailure`; a `none` error is Go's nil, replaced
by the fallback text "ping failed". -/
def Manager.emitFailure (m : Manager) (err : Option String) (now : Nat) : Manager :=
  let e := match err with
    | none => "ping failed"
    | some t => t
  let sample : Sample := { timestamp := now, latency := 0, failed := true, description := e }
  { m with history := m.history.Add sample, resultCh := sendNonBlocking m.resultCh sample }

/-- The probe mode and target a cycle uses: `doPing` reads
`m.ProbeMode()` and `m.Target()` from the current manager state at the start
of every call. -/
def Manager.cycleProbeArgs (m : Manager) : ProbeMode × String := (m.ProbeModeVal, m.Target)

/-- Embedding of `Manager.doPing`: mark in-flight, read the current mode and
target, run the probe, record success or failure, and clear the in-flight
flag on the way out (Go's deferred `markInFlight(false)`). -/
def Manager.doPing (m : Manager) (probe : ProbeMode → String → Except String Sample)
    (now : Nat) : Manager :=
  let m1 := m.markInFlight true now
  (match probe m1.cycleProbeArgs.1 m1.cycleProbeArgs.2 with
    | .error e => m1.emitFailure (some e) now
    | .ok s =>
        { m1 with history := m1.history.Add s, resultCh := sendNonBlocking m1.resultCh s }
  ).markInFlight false now

/-- C4 (amended): `SetTarget` and `SetProbeMode` write fields that every
`doPing` cycle re-reads at its start, so a mutation is already used by the
next probe cycle without any `Restart()`; only a probe already in progress
keeps the values it read. -/
theorem claimC4_next_cycle (m : Manager) (t : String) (md : ProbeMode) :
    (m.SetTarget t).cycleProbeArgs = (m.probeMode, t) ∧
    (m.SetProbeMode md).cycleProbeArgs = (md, m.target) :=
  ⟨rfl, rfl⟩

def managerEx : Manager := NewManager "1.1.1.1" 1000000000 2000000000 ProbeModeICMP 60

/-- C4 counterexample: on a freshly constructed manager targeting
"1.1.1.1", after `SetTarget("192.168.1.1")` and no `Restart()`, the very
next probe cycle already reads target "192.168.1.1", not the previously
configured "1.1.1.1" the claim predicts. -/
theorem claimC4_cex :
    (managerEx.SetTarget "192.168.1.1").cycleProbeArgs = (ProbeModeICMP, "192.168.1.1") ∧
    managerEx.Target = "1.1.1.1" ∧ ("192.168.1.1" : String) ≠ "1.1.1.1" :=
  ⟨by decide, by decide, by decide⟩

/-- C5: when the probe of a cycle fails with error text `e`, `doPing`
appends to History exactly the sample with the cycle's timestamp, zero
latency, `failed = true` and description `e`, and offers the same sample to
the result channel through the non-blocking send; a non-empty error text
yields a non-empty description. -/
theorem claimC5_failure_sample (m : Manager) (e : String) (now : Nat) (he : e ≠ "") :
    (m.doPing (fun _ _ => .error e) now).history = m.history.Add ⟨now, 0, true, e⟩ ∧
    (m.doPing (fun _ _ => .error e) now).resultCh = sendNonBlocking m.resultCh ⟨now, 0, true, e⟩ ∧
    (⟨now, 0, true, e⟩ : Sample).failed = true ∧
    (⟨now, 0, true, e⟩ : Sample).latency = 0 ∧
    (⟨now, 0, true, e⟩ : Sample).description = e ∧
    (⟨now, 0, true, e⟩ : Sample).description ≠ "" :=
  ⟨rfl, rfl, rfl, rfl, rfl, he⟩

theorem claimC5_wit :
    ("i/o timeout" ≠ "") ∧
    ((managerEx.doPing (fun _ _ => .error "i/o timeout") 7).history
        = managerEx.history.Add ⟨7, 0, true, "i/o timeout"⟩ ∧
      (managerEx.doPing (fun _ _ => .error "i/o timeout") 7).resultCh
        = sendNonBlocking managerEx.resultCh ⟨7, 0, true, "i/o timeout"⟩ ∧
      (⟨7, 0, true, "i/o timeout"⟩ : Sample).failed = true ∧
      (⟨7, 0, true, "i/o timeout"⟩ : Sample).latency = 0 ∧
      (⟨7, 0, true, "i/o timeout"⟩ : Sample).description = "i/o timeout" ∧
      (⟨7, 0, true, "i/o timeout"⟩ : Sample).description ≠ "") :=
  ⟨by decide, claimC5_failure_sample managerEx "i/o timeout" 7 (by decide)⟩

/-- C9: every probe cycle raises the in-flight flag and records the start
instant before the probe runs, and `doPing` ends with the deferred
`markInFlight(false)`, so after it returns the flag is down for every
possible probe outcome (success, failure, or a cancellation surfaced as an
error). -/
theorem claimC9_inflight_cleared (m : Manager)
    (probe : ProbeMode → String → Except String Sample) (now : Nat) :
    (m.markInFlight true now).inFlight = true ∧
    (m.markInFlight true now).inFlightStart = now ∧
    (m.doPing probe now).inFlight = false :=
  ⟨rfl, rfl, rfl⟩

/-- C10: whenever the in-flight flag is down, `IsInFlight` returns exactly
`(false, 0)`: the elapsed component is the literal zero, not a duration
computed from the (possibly stale) start instant. -/
theorem claimC10_not_inflight (m : Manager) (now : Nat) (h : m.inFlight = false) :
    m.IsInFlight now = (false, 0) := by
  rw [Manager.IsInFlight, h]
  rfl

theorem claimC10_wit :
    managerEx.inFlight = false ∧ managerEx.IsInFlight 42 = (false, 0) :=
  ⟨rfl, claimC10_not_inflight managerEx 42 rfl⟩

/-- C6 (evidence for the code bug): the completion path of a probe cycle
appends its sample to History unconditionally — `doPing` contains no
cancellation check between the probe returning and `history.Add`, so a
probe still blocking when `Stop()` cancels the context (the ICMP prober
ignores its context and blocks up to `timeout`, which by default exceeds
one `interval`) still appends a sample when it completes. -/
theorem claimC6_append_after_stop :
    (managerEx.doPing (fun _ _ => .ok sampleA) 7).history = managerEx.history.Add sampleA :=
  rfl

end Pinger
